import Mathlib

/-
Verification development for the marbl-forcing initial-conditions notebook
(src/initial_conditions/gen_cesm2_omip_IC.ipynb).

The embedding covers:
  - the land-adjacency classifier built from rolled copies of the KMT array
    (cells kmt_neighbors, side_wall_present, side_wall_kmt_min, land_adjacent);
  - the tripolar row-replacement attempt and its xarray assignment semantics;
  - the sedfrac floor application (sedfrac_mod);
  - the vertical nearest-above fill loop with its residual-missing warning;
  - the derived-quantities step that aliases DOC into DOCtot.

Arrays indexed (k, j, i) are modelled as functions; KMT is a function
Fin nj -> Fin ni -> Nat; fields with missing values use Option.
-/

/-- Index arithmetic of xarray DataArray.roll along an axis of size n:
the rolled array at position x holds the original value at (x - r) mod n,
for roll amount r (np.roll semantics, periodic in the axis). -/
def wrapRoll (n x : ℕ) (r : Int) : ℕ := (((x : Int) - r) % (n : Int)).toNat

/-- Spec-side additive wrap: logical neighbor offset d from position x on a
cyclic axis of size n. -/
def specWrap (n x : ℕ) (d : Int) : ℕ := (((x : Int) + d) % (n : Int)).toNat

/-- wrapRoll packaged as an index of Fin n. -/
def wrapRollFin (n : ℕ) (hn : 0 < n) (x : ℕ) (r : Int) : Fin n :=
  ⟨wrapRoll n x r, by
    have hn0 : (0 : Int) < (n : Int) := by exact_mod_cast hn
    have h1 : 0 ≤ ((x : Int) - r) % (n : Int) := Int.emod_nonneg _ (by omega)
    have h2 : ((x : Int) - r) % (n : Int) < (n : Int) := Int.emod_lt_of_pos _ hn0
    unfold wrapRoll
    omega⟩

/-- specWrap packaged as an index of Fin n. -/
def specWrapFin (n : ℕ) (hn : 0 < n) (x : ℕ) (d : Int) : Fin n :=
  ⟨specWrap n x d, by
    have hn0 : (0 : Int) < (n : Int) := by exact_mod_cast hn
    have h1 : 0 ≤ ((x : Int) + d) % (n : Int) := Int.emod_nonneg _ (by omega)
    have h2 : ((x : Int) + d) % (n : Int) < (n : Int) := Int.emod_lt_of_pos _ hn0
    unfold specWrap
    omega⟩

/-- The eight (iroll, jroll) pairs of the source loop
for iroll, jroll in product([-1, 0, 1], [-1, 0, 1]) with (0, 0) skipped. -/
def roll_offsets : List (Int × Int) :=
  [(-1,-1),(-1,0),(-1,1),(0,-1),(0,1),(1,-1),(1,0),(1,1)]

/-- The corresponding logical neighbor offsets (di, dj) = (-iroll, -jroll),
slot by slot. -/
def logical_offsets : List (Int × Int) :=
  [(1,1),(1,0),(1,-1),(0,1),(0,-1),(-1,1),(-1,0),(-1,-1)]

/-- Embedding of the source cell building kmt_neighbors: for each of the eight
roll offsets, the value of KMT rolled by (jroll, iroll), read at (j, i); by
roll semantics this is KMT at ((j - jroll) mod nj, (i - iroll) mod ni).
xarray roll is periodic in BOTH dimensions. This is the non-tripolar path
(kmt_rollable equal to ds.KMT). -/
def kmt_neighbors {nj ni : ℕ} (kmt : Fin nj → Fin ni → ℕ) (j : Fin nj) (i : Fin ni) :
    List ℕ :=
  roll_offsets.map fun p =>
    kmt (wrapRollFin nj j.pos j.val p.2) (wrapRollFin ni i.pos i.val p.1)

/-- side_wall_present = (kmt_neighbors <= ds.KMT).any(dim=corner). -/
def side_wall_present {nj ni : ℕ} (kmt : Fin nj → Fin ni → ℕ) (j : Fin nj) (i : Fin ni) :
    Bool :=
  (kmt_neighbors kmt j i).any fun d => decide (d ≤ kmt j i)

/-- Minimum of a list of naturals, 0 on the empty list; the lists it is applied
to are the eight-element neighbor lists. -/
def listMinNat : List ℕ → ℕ
  | [] => 0
  | h :: t => t.foldl min h

/-- side_wall_kmt_min = kmt_neighbors.min(dim=corner). -/
def side_wall_kmt_min {nj ni : ℕ} (kmt : Fin nj → Fin ni → ℕ) (j : Fin nj) (i : Fin ni) :
    ℕ :=
  listMinNat (kmt_neighbors kmt j i)

/-- Embedding of the classifier output
land_adjacent = where((side_wall_present and (ZERO_TO_KM < KMT) and
(ZERO_TO_KM >= side_wall_kmt_min)) or (ZERO_TO_KM == KMT - 1));
the 1.0/0.0 valued array is modelled as Bool (true at the marked cells).
KMT - 1 is integer arithmetic in the source (KMT = 0 gives -1, matched by
no level k), hence the comparison is taken in Int. -/
def land_adjacent {nj ni : ℕ} (kmt : Fin nj → Fin ni → ℕ) (k : ℕ) (j : Fin nj)
    (i : Fin ni) : Bool :=
  (side_wall_present kmt j i && decide (k < kmt j i)
      && decide (side_wall_kmt_min kmt j i ≤ k))
    || decide ((k : Int) = (kmt j i : Int) - 1)

/-- The neighbors of the claim rule (a): those with neighbor_depth <= KMT. -/
def qualifying_neighbors {nj ni : ℕ} (kmt : Fin nj → Fin ni → ℕ) (j : Fin nj)
    (i : Fin ni) : List ℕ :=
  (kmt_neighbors kmt j i).filter fun d => decide (d ≤ kmt j i)

/-- Adjacency contract stated by the claim: (a) k below the column bottom, some
neighbor no deeper than the column, and k at or below the minimum of those
qualifying neighbor depths; or (b) k is the bottom-most wet level. -/
def spec_adjacent {nj ni : ℕ} (kmt : Fin nj → Fin ni → ℕ) (k : ℕ) (j : Fin nj)
    (i : Fin ni) : Prop :=
  (k < kmt j i ∧ qualifying_neighbors kmt j i ≠ [] ∧
      listMinNat (qualifying_neighbors kmt j i) ≤ k)
    ∨ (k : Int) = (kmt j i : Int) - 1

/-- Spec-side neighbor depths of a fully periodic torus: both indices wrap,
with additive logical offsets, slot by slot as in the source loop. -/
def torus_neighbor_depths {nj ni : ℕ} (kmt : Fin nj → Fin ni → ℕ) (j : Fin nj)
    (i : Fin ni) : List ℕ :=
  logical_offsets.map fun p =>
    kmt (specWrapFin nj j.pos j.val p.2) (specWrapFin ni i.pos i.val p.1)

/-- Neighbor depths under the reading of the claim: the i index wraps modulo
ni, the j index is a plain shift with no wrap, so offsets leaving the j range
contribute no neighbor. -/
def nowrap_neighbor_depths {nj ni : ℕ} (kmt : Fin nj → Fin ni → ℕ) (j : Fin nj)
    (i : Fin ni) : List ℕ :=
  logical_offsets.filterMap fun p =>
    if h : 0 ≤ (j.val : Int) + p.2 ∧ ((j.val : Int) + p.2).toNat < nj then
      some (kmt ⟨((j.val : Int) + p.2).toNat, h.2⟩ (specWrapFin ni i.pos i.val p.1))
    else none

/-- The adjacency rule of the claim evaluated over the no-wrap neighbor
depths, for comparison with the classifier. -/
def nowrap_adjacent {nj ni : ℕ} (kmt : Fin nj → Fin ni → ℕ) (k : ℕ) (j : Fin nj)
    (i : Fin ni) : Bool :=
  let q := (nowrap_neighbor_depths kmt j i).filter fun d => decide (d ≤ kmt j i)
  (!q.isEmpty && decide (k < kmt j i) && decide (listMinNat q ≤ k))
    || decide ((k : Int) = (kmt j i : Int) - 1)

/-- The 3x3 fixture of the end-to-end scenario: bottom_index 1 everywhere
except 2 at the center column. -/
def kmtC2 : Fin 3 → Fin 3 → ℕ := fun j i => if j = 1 ∧ i = 1 then 2 else 1

/-- Fixture for the j-direction wrap: shallow first row, deep elsewhere. -/
def kmtC3 : Fin 3 → Fin 2 → ℕ := fun j _ => if j = 0 then 1 else 3

/-- A 2x2 bottom-index array used as the concrete tripolar input. -/
def kmtC4 : Fin 2 → Fin 2 → ℕ := fun j i => 2 * j.val + i.val + 1

/-- Fixture for the cyclic i wrap: a row of 3 columns, shallow at i = 0,
deep elsewhere; the cell at i = 2 = ni - 1 has its shallow neighbor at
logical i = 0 only through the periodic wrap. -/
def kmtWrapI : Fin 1 → Fin 3 → ℕ := fun _ i => if i = 0 then 1 else 3

/-- Shape rule of the xarray basic-indexing assignment
variable[key] = value: after converting value to an array, a value whose
rank exceeds the rank of the indexed destination raises
ValueError (shape mismatch ... could not be broadcast). -/
def setitem_shape_ok (dest_rank value_rank : ℕ) : Bool := value_rank ≤ dest_rank

/-- Diagnostic of the failing row assignment in the tripolar branch. -/
def shape_mismatch_msg : String :=
  "shape mismatch: value array of 2 dimensions could not be broadcast to indexing result with 1 dimensions"

/-- Embedding of the tripolar branch
if ltripole: kmt_rollable[0, :] = kmt_rollable[::-1, :].
The right-hand side kmt_rollable[::-1, :] is the whole array reversed along
the j axis, an array of rank 2; the destination kmt_rollable[0, :] is a row
of rank 1, so the assignment fails the setitem shape rule and raises before
writing anything. With ltripole false the array is left as ds.KMT. The ok
branch of the inner check is unreachable (2 is never at most 1). -/
def kmt_rollable_result {nj ni : ℕ} (ltripole : Bool) (kmt : Fin nj → Fin ni → ℕ) :
    Except String (Fin nj → Fin ni → ℕ) :=
  if ltripole then
    if setitem_shape_ok 1 2 then Except.ok kmt
    else Except.error shape_mismatch_msg
  else Except.ok kmt

/-- The classifier cell as a whole: prepare kmt_rollable, then classify.
A raised exception propagates; no output array is produced in that case. -/
def land_adjacent_run {nj ni : ℕ} (ltripole : Bool) (kmt : Fin nj → Fin ni → ℕ) :
    Except String (ℕ → Fin nj → Fin ni → Bool) :=
  (kmt_rollable_result ltripole kmt).map fun kr => land_adjacent kr

/-- True exactly on the ok results. -/
def exceptOk {ε σ : Type} : Except ε σ → Bool
  | Except.ok _ => true
  | Except.error _ => false

/-- The classifier cell together with the state of the input array after the
cell ran: kmt_rollable is an alias of ds.KMT (no copy is taken), but the only
write to it is the failed row assignment, which raises its shape error before
storing anything, so the array contents are unchanged on both paths. -/
def classifier_state_run {nj ni : ℕ} (ltripole : Bool) (kmt : Fin nj → Fin ni → ℕ) :
    Except String (ℕ → Fin nj → Fin ni → Bool) × (Fin nj → Fin ni → ℕ) :=
  (land_adjacent_run ltripole kmt, kmt)

/-- Embedding of the sedfrac floor cell:
sedfrac_mod = where((land_adjacent == 1) and (sedfrac < land_adj_sedfrac_min),
land_adj_sedfrac_min, sedfrac), then where(MASK == 1).fillna(0).
Cells are indexed by an arbitrary type to keep the pointwise contract. -/
def sedfrac_mod {σ : Type} (land_adj mask : σ → Bool) (land_adj_sedfrac_min : ℚ)
    (sedfrac : σ → ℚ) : σ → ℚ :=
  fun c =>
    let v := if land_adj c = true ∧ sedfrac c < land_adj_sedfrac_min
      then land_adj_sedfrac_min else sedfrac c
    if mask c = true then v else 0

/-- unfilled = tracer.isnull() and (MASK == 1), computed once before the
vertical loop. -/
def unfilled_of {ι α : Type} (mask : ℕ → ι → Bool) (x : ℕ → ι → Option α) :
    ℕ → ι → Bool :=
  fun k c => (x k c).isNone && mask k c

/-- State of the field after the loop iterations k = 1 .. m of
for k in range(1, nk): tracer[k] = where(unfilled[k], tracer[k-1], tracer[k]).
Iteration k rewrites level k from the current (possibly already filled)
level k - 1. -/
def vfill_aux {ι α : Type} (unf : ℕ → ι → Bool) (x : ℕ → ι → Option α) :
    ℕ → ℕ → ι → Option α
  | 0 => x
  | m + 1 => fun k c =>
      if k = m + 1 ∧ unf k c = true then vfill_aux unf x m m c
      else vfill_aux unf x m k c

/-- The ocean mask MASK = (ZERO_TO_KM < KMT): level k of column c is wet
exactly when k < KMT. -/
def oceanMask {ι : Type} (kmt : ι → ℕ) : ℕ → ι → Bool :=
  fun k c => decide (k < kmt c)

/-- The vertical fill pass: if unfilled.any(), run the loop over levels
1 .. nk - 1, else leave the field alone. -/
def vertical_fill {ι : Type} [Fintype ι] {α : Type} (nk : ℕ) (mask : ℕ → ι → Bool)
    (x : ℕ → ι → Option α) : ℕ → ι → Option α :=
  if ∃ k ∈ Finset.range nk, ∃ c : ι, unfilled_of mask x k c = true then
    vfill_aux (unfilled_of mask x) x (nk - 1)
  else x

/-- The whole per-tracer fill block: compute unfilled; if any, run the loop
and warn (naming the tracer) when masked missing cells remain; the field,
filled or not, is returned either way (the notebook then stores it in
ds_out). The warning is modelled as an optional message. -/
def tracer_fill_with_warning {ι : Type} [Fintype ι] {α : Type} (tracername : String)
    (nk : ℕ) (mask : ℕ → ι → Bool) (x : ℕ → ι → Option α) :
    (ℕ → ι → Option α) × Option String :=
  if ∃ k ∈ Finset.range nk, ∃ c : ι, unfilled_of mask x k c = true then
    (vfill_aux (unfilled_of mask x) x (nk - 1),
      if ∃ k ∈ Finset.range nk, ∃ c : ι,
          (vfill_aux (unfilled_of mask x) x (nk - 1) k c).isNone = true ∧ mask k c = true
      then some (tracername ++ " still has missing values") else none)
  else (x, none)

/-- A small model of an xarray Dataset with python object aliasing: heap is
the list of underlying variable data arrays (one rational per cell, cells
indexed by ι), vars maps a variable name to the heap slot of its data. A
DataArray obtained from the dataset shares the heap slot; writing through its
values setter replaces the data in that shared slot. -/
structure PyDataset (ι : Type) where
  heap : List (ι → ℚ)
  vars : String → Option ℕ

/-- Reading a variable of the dataset: look its heap slot up and fetch the
data stored there. -/
def readVar {ι : Type} (ds : PyDataset ι) (name : String) : ι → ℚ :=
  match ds.vars name with
  | some slot => ds.heap.getD slot (fun _ => 0)
  | none => fun _ => 0

/-- Embedding of the derived-quantities statements
DOCtot = ds_out[DOC]                       (alias: same heap slot)
DOCtot.values = ds_out[DOC].values + ds_out[DOCr].values
                                           (write through the shared slot)
ds_out[DOCtot] = DOCtot                    (bind the name DOCtot to the slot).
If DOC is absent the step is not meaningful and the dataset is returned
unchanged. -/
def derived_quantities_step {ι : Type} (ds : PyDataset ι) : PyDataset ι :=
  match ds.vars "DOC" with
  | none => ds
  | some docSlot =>
      { heap := ds.heap.set docSlot
          (fun c => readVar ds "DOC" c + readVar ds "DOCr" c)
        vars := fun n => if n = "DOCtot" then some docSlot else ds.vars n }

/-- Concrete dataset for the aliasing fixture: DOC holds the constant 2,
DOCr the constant 3. -/
def dsC10 : PyDataset Unit :=
  { heap := [fun _ => 2, fun _ => 3]
    vars := fun n => if n = "DOC" then some 0 else if n = "DOCr" then some 1 else none }

/-- Concrete field for the vertical fill fixture: one column of three levels,
a valid surface value above a deep hole. -/
def xC7 : ℕ → Fin 1 → Option ℚ := fun k _ => if k = 0 then some 1 else none

/-- Concrete all-missing field for the warning fixture. -/
def xC9 : ℕ → Fin 1 → Option ℚ := fun _ _ => none

-- Helper lemmas about foldl min / listMinNat.

theorem foldl_min_le_init (t : List ℕ) (a : ℕ) : t.foldl min a ≤ a := by
  induction t generalizing a with
  | nil => simp
  | cons h t ih =>
      simp only [List.foldl_cons]
      exact le_trans (ih (min a h)) (min_le_left a h)

theorem foldl_min_le_mem (t : List ℕ) (a b : ℕ) (hb : b ∈ t) : t.foldl min a ≤ b := by
  induction t generalizing a with
  | nil => cases hb
  | cons h t ih =>
      simp only [List.foldl_cons]
      rcases List.mem_cons.mp hb with rfl | hmem
      · exact le_trans (foldl_min_le_init t (min a b)) (min_le_right a b)
      · exact ih (min a h) hmem

theorem foldl_min_mem (t : List ℕ) (a : ℕ) : t.foldl min a = a ∨ t.foldl min a ∈ t := by
  induction t generalizing a with
  | nil => left; rfl
  | cons h t ih =>
      simp only [List.foldl_cons]
      rcases ih (min a h) with heq | hmem
      · rcases le_total a h with hle | hle
        · left; rw [heq, min_eq_left hle]
        · right
          rw [heq, min_eq_right hle]
          exact List.mem_cons_self h t
      · right; exact List.mem_cons_of_mem h hmem

theorem listMinNat_mem {l : List ℕ} (h : l ≠ []) : listMinNat l ∈ l := by
  cases l with
  | nil => exact absurd rfl h
  | cons a t =>
      show t.foldl min a ∈ a :: t
      rcases foldl_min_mem t a with heq | hmem
      · rw [heq]; exact List.mem_cons_self a t
      · exact List.mem_cons_of_mem a hmem

theorem listMinNat_le_of_mem {l : List ℕ} {b : ℕ} (hb : b ∈ l) : listMinNat l ≤ b := by
  cases l with
  | nil => cases hb
  | cons a t =>
      show t.foldl min a ≤ b
      rcases List.mem_cons.mp hb with rfl | hmem
      · exact foldl_min_le_init t b
      · exact foldl_min_le_mem t a b hmem

/-- With at least one neighbor no deeper than c, the minimum over all
neighbors equals the minimum over the qualifying ones. -/
theorem listMinNat_filter_le_eq (l : List ℕ) (c : ℕ)
    (hne : l.filter (fun d => decide (d ≤ c)) ≠ []) :
    listMinNat (l.filter (fun d => decide (d ≤ c))) = listMinNat l := by
  have hql : ∀ b ∈ l.filter (fun d => decide (d ≤ c)), b ∈ l :=
    fun b hb => (List.mem_filter.mp hb).1
  have hqmem := listMinNat_mem hne
  have h1 : listMinNat l ≤ listMinNat (l.filter (fun d => decide (d ≤ c))) :=
    listMinNat_le_of_mem (hql _ hqmem)
  have hminq_le : listMinNat (l.filter (fun d => decide (d ≤ c))) ≤ c := by
    have := (List.mem_filter.mp hqmem).2
    simpa using this
  have hlne : l ≠ [] := by
    intro hl
    rw [hl] at hne
    simp at hne
  have hminl_in_q : listMinNat l ∈ l.filter (fun d => decide (d ≤ c)) := by
    refine List.mem_filter.mpr ⟨listMinNat_mem hlne, ?_⟩
    simpa using le_trans h1 hminq_le
  have h2 := listMinNat_le_of_mem hminl_in_q
  omega

theorem side_wall_present_iff {nj ni : ℕ} (kmt : Fin nj → Fin ni → ℕ) (j : Fin nj)
    (i : Fin ni) :
    side_wall_present kmt j i = true ↔ qualifying_neighbors kmt j i ≠ [] := by
  unfold side_wall_present qualifying_neighbors
  rw [List.any_eq_true]
  constructor
  · rintro ⟨d, hd, hle⟩
    exact List.ne_nil_of_mem (List.mem_filter.mpr ⟨hd, hle⟩)
  · intro hne
    obtain ⟨d, hd⟩ := List.exists_mem_of_ne_nil _ hne
    exact ⟨d, (List.mem_filter.mp hd).1, (List.mem_filter.mp hd).2⟩

/-- C1: neighbor adjacency classifier contract. For every 2D bottom-index
array and every cell (k, j, i), the classifier marks the cell if and only if
(a) k < bottom_index, some of the 8 neighbor depths is at most bottom_index,
and k is at least the minimum depth over those qualifying neighbors; or
(b) k equals bottom_index - 1. In particular cells of columns with
bottom_index = 0 (land) are never marked, so an all-land grid yields
all-false. -/
theorem C1_neighbor_adjacency_contract {nj ni : ℕ} (kmt : Fin nj → Fin ni → ℕ) :
    (∀ (k : ℕ) (j : Fin nj) (i : Fin ni),
        land_adjacent kmt k j i = true ↔ spec_adjacent kmt k j i) ∧
    (∀ (k : ℕ) (j : Fin nj) (i : Fin ni),
        kmt j i = 0 → land_adjacent kmt k j i = false) := by
  have hmain : ∀ (k : ℕ) (j : Fin nj) (i : Fin ni),
      land_adjacent kmt k j i = true ↔ spec_adjacent kmt k j i := by
    intro k j i
    unfold land_adjacent spec_adjacent
    simp only [Bool.or_eq_true, Bool.and_eq_true, decide_eq_true_eq]
    constructor
    · rintro (⟨⟨hswp, hk⟩, hmin⟩ | heq)
      · left
        have hq := (side_wall_present_iff kmt j i).mp hswp
        refine ⟨hk, hq, ?_⟩
        unfold qualifying_neighbors at hq ⊢
        rw [listMinNat_filter_le_eq _ _ hq]
        exact hmin
      · right; exact heq
    · rintro (⟨hk, hq, hmin⟩ | heq)
      · left
        refine ⟨⟨(side_wall_present_iff kmt j i).mpr hq, hk⟩, ?_⟩
        unfold qualifying_neighbors at hq hmin
        unfold side_wall_kmt_min
        rw [← listMinNat_filter_le_eq _ _ hq]
        exact hmin
      · right; exact heq
  refine ⟨hmain, ?_⟩
  intro k j i h0
  cases hla : land_adjacent kmt k j i with
  | false => rfl
  | true =>
      exfalso
      have := (hmain k j i).mp hla
      unfold spec_adjacent at this
      rw [h0] at this
      rcases this with ⟨hk, _⟩ | heq
      · omega
      · omega

/-- C1 witness: on an all-land 2x2 grid the classifier leaves the surface
cell unmarked. -/
theorem C1_witness :
    land_adjacent (fun _ _ => 0 : Fin 2 → Fin 2 → ℕ) 0 0 0 = false :=
  (C1_neighbor_adjacency_contract (fun _ _ => 0)).2 0 0 0 rfl

/-- C2 counterexample: on the 3x3 fixture the claim expects every level-0 wet
cell, the center included, to be marked; the classifier leaves the center
cell at level 0 unmarked (its eight neighbors all have depth 1, so rule (a)
needs k at least 1, and its bottom-most level is k = 1, not 0). -/
theorem C2_center_surface_not_marked : land_adjacent kmtC2 0 1 1 = false := by decide

/-- C2 amended: on the 3-level 3x3 fixture the classifier marks exactly the
eight ring cells at level 0 and the center cell at level 1; in particular the
center cell at level 0 is not marked. -/
theorem C2_fixture_classification :
    ∀ (k j i : Fin 3),
      land_adjacent kmtC2 k.val j i = true ↔
        ((k.val = 0 ∧ ¬(j = 1 ∧ i = 1)) ∨ (k.val = 1 ∧ j = 1 ∧ i = 1)) := by decide

/-- C3 counterexample: the claim says rows at the j edge have no neighbor
beyond the array edge. On the kmtC3 fixture the classifier marks the cell
(k = 1, j = 2, i = 0) because rolling wraps the j axis and brings in the
shallow row j = 0, while the adjacency rule evaluated over no-wrap
neighbor depths leaves the cell unmarked. -/
theorem C3_j_edge_sees_wrapped_row :
    land_adjacent kmtC3 1 2 0 = true ∧ nowrap_adjacent kmtC3 1 2 0 = false := by decide

/-- The rolled copy with (iroll, jroll) = (-1, 0) holds, at (j, i), the KMT
value of the eastern neighbor (i + 1) mod ni. -/
theorem east_neighbor_mem {nj ni : ℕ} (kmt : Fin nj → Fin ni → ℕ) (j : Fin nj)
    (i : Fin ni) :
    kmt j (specWrapFin ni i.pos i.val 1) ∈ kmt_neighbors kmt j i := by
  unfold kmt_neighbors
  refine List.mem_map.mpr ⟨((-1 : Int), (0 : Int)), by simp [roll_offsets], ?_⟩
  have h1 : wrapRollFin nj j.pos j.val 0 = j := by
    apply Fin.ext
    show wrapRoll nj j.val 0 = j.val
    unfold wrapRoll
    have hlt : (j.val : Int) < (nj : Int) := by exact_mod_cast j.isLt
    have : ((j.val : Int) - 0) % (nj : Int) = (j.val : Int) :=
      Int.emod_eq_of_lt (by omega) (by omega)
    rw [this]
    simp
  have h2 : wrapRollFin ni i.pos i.val (-1) = specWrapFin ni i.pos i.val 1 := by
    apply Fin.ext
    show wrapRoll ni i.val (-1) = specWrap ni i.val 1
    unfold wrapRoll specWrap
    norm_num
  rw [h1, h2]

/-- C3 amended: the eight neighbor depths are those of a fully periodic
torus, wrapping modulo ni in i AND modulo nj in j (roll is periodic in both
dimensions); and the cyclic wrap in i does detect adjacency: any cell whose
eastern wrapped neighbor at (i + 1) mod ni is no deeper than level k, with k
inside the water column, is marked. -/
theorem C3_torus_neighbor_topology {nj ni : ℕ} (kmt : Fin nj → Fin ni → ℕ)
    (j : Fin nj) (i : Fin ni) :
    kmt_neighbors kmt j i = torus_neighbor_depths kmt j i ∧
    ∀ k : ℕ, kmt j (specWrapFin ni i.pos i.val 1) ≤ k → k < kmt j i →
      land_adjacent kmt k j i = true := by
  constructor
  · rfl
  · intro k hle hlt
    have hmem := east_neighbor_mem kmt j i
    have hswp : side_wall_present kmt j i = true := by
      unfold side_wall_present
      rw [List.any_eq_true]
      exact ⟨_, hmem, by simpa using le_trans hle (le_of_lt hlt)⟩
    have hmin : side_wall_kmt_min kmt j i ≤ k :=
      le_trans (listMinNat_le_of_mem hmem) hle
    unfold land_adjacent
    simp only [Bool.or_eq_true, Bool.and_eq_true, decide_eq_true_eq]
    exact Or.inl ⟨⟨hswp, hlt⟩, hmin⟩

/-- C3 witness: on the single-row fixture the cell at i = ni - 1 = 2 is
detected as land-adjacent at level 1 through its wrapped shallow neighbor at
logical i = 0. -/
theorem C3_witness : land_adjacent kmtWrapI 1 0 2 = true :=
  (C3_torus_neighbor_topology kmtWrapI 0 2).2 1 (by decide) (by decide)

/-- C4: with ltripole true the source line
kmt_rollable[0, :] = kmt_rollable[::-1, :] assigns the whole j-reversed
rank-2 array into the rank-1 row j = 0, so the xarray setitem shape rule
raises ValueError and no fold (no row replacement at all) is performed; the
claim and the notebook text above the cell expect a reversed row to be
written. Evaluated here at the concrete 2x2 tripolar input. -/
theorem C4_tripolar_row_assignment_raises :
    kmt_rollable_result true kmtC4 = Except.error shape_mismatch_msg := rfl

/-- C5 counterexample: the classifier is not a total pure function of its
inputs; with is_tripolar true it produces no output array at all (the row
assignment raises), as evaluated on the concrete 2x2 input. -/
theorem C5_tripolar_run_produces_no_output :
    exceptOk (land_adjacent_run true kmtC4) = false := rfl

/-- C5 amended: with is_tripolar false the classifier is pure: it returns
the classification of the input array, and the input array is unchanged
after the run; with is_tripolar true the run raises before writing anything,
so the input array is also unchanged, but no classification is produced
(the code aliases the input without a copy, so the intended row replacement
would have written into it). -/
theorem C5_purity_by_tripolar_flag {nj ni : ℕ} (kmt : Fin nj → Fin ni → ℕ) :
    (classifier_state_run false kmt).2 = kmt ∧
    (classifier_state_run true kmt).2 = kmt ∧
    (classifier_state_run false kmt).1 = Except.ok (land_adjacent kmt) ∧
    exceptOk (classifier_state_run true kmt).1 = false :=
  ⟨rfl, rfl, rfl, rfl⟩

/-- C6 counterexample: the claim quantifies over every land-adjacency array
and ocean mask and asks for max(input, floor) at every land-adjacent cell;
at a cell flagged land-adjacent but outside the mask, with input 0.01 and
floor 0.03, the code forces the output to 0, not max = 0.03. -/
theorem C6_unmasked_adjacent_cell_forced_to_zero :
    sedfrac_mod (fun _ => true) (fun _ => false) (3/100) (fun _ => 1/100) ()
      ≠ max (1/100 : ℚ) (3/100) := by
  intro h
  have : (0 : ℚ) = max (1/100 : ℚ) (3/100) := h
  rw [max_eq_right (by norm_num)] at this
  norm_num at this

/-- C6 amended: at every masked cell where land_adjacent holds the output
equals max(input, floor); at every masked cell where it does not hold the
output is the input unchanged; at every cell outside the ocean mask the
output is 0 (the mask forcing takes precedence over the floor clause). The
operation is a total function with no error conditions. -/
theorem C6_floor_application {σ : Type} (land_adj mask : σ → Bool)
    (land_adj_sedfrac_min : ℚ) (sedfrac : σ → ℚ) (c : σ) :
    (mask c = true → land_adj c = true →
      sedfrac_mod land_adj mask land_adj_sedfrac_min sedfrac c
        = max (sedfrac c) land_adj_sedfrac_min) ∧
    (mask c = true → land_adj c = false →
      sedfrac_mod land_adj mask land_adj_sedfrac_min sedfrac c = sedfrac c) ∧
    (mask c = false →
      sedfrac_mod land_adj mask land_adj_sedfrac_min sedfrac c = 0) := by
  unfold sedfrac_mod
  refine ⟨?_, ?_, ?_⟩
  · intro hm ha
    rw [if_pos hm]
    rcases lt_or_le (sedfrac c) land_adj_sedfrac_min with hlt | hle
    · rw [if_pos ⟨ha, hlt⟩, max_eq_right (le_of_lt hlt)]
    · rw [if_neg (fun hc => absurd hc.2 (not_lt.mpr hle)), max_eq_left hle]
  · intro hm ha
    rw [if_pos hm, if_neg (by simp [ha])]
  · intro hm
    rw [if_neg (by simp [hm])]

/-- C6 witness: with input 0.01 and floor 0.03, a masked land-adjacent cell
yields 0.03 and a masked non-adjacent cell yields the unchanged 0.01. -/
theorem C6_witness :
    sedfrac_mod (fun _ => true) (fun _ => true) (3/100) (fun _ => 1/100) () = 3/100 ∧
    sedfrac_mod (fun _ => false) (fun _ => true) (3/100) (fun _ => 1/100) () = 1/100 := by
  constructor
  · rw [(C6_floor_application (fun _ => true) (fun _ => true) (3/100)
        (fun _ => 1/100) ()).1 rfl rfl]
    rw [max_eq_right (by norm_num)]
  · exact (C6_floor_application (fun _ => false) (fun _ => true) (3/100)
      (fun _ => 1/100) ()).2.1 rfl rfl

-- Lemmas about the vertical fill loop.

theorem vfill_aux_zero {ι α : Type} (unf : ℕ → ι → Bool) (x : ℕ → ι → Option α)
    (m : ℕ) (c : ι) : vfill_aux unf x m 0 c = x 0 c := by
  induction m with
  | zero => rfl
  | succ m ih =>
      show (if 0 = m + 1 ∧ unf 0 c = true then vfill_aux unf x m m c
        else vfill_aux unf x m 0 c) = x 0 c
      rw [if_neg (by rintro ⟨h, _⟩; omega)]
      exact ih

theorem vfill_aux_above {ι α : Type} (unf : ℕ → ι → Bool) (x : ℕ → ι → Option α)
    (m k : ℕ) (c : ι) (h : m < k) : vfill_aux unf x m k c = x k c := by
  induction m with
  | zero => rfl
  | succ m ih =>
      show (if k = m + 1 ∧ unf k c = true then vfill_aux unf x m m c
        else vfill_aux unf x m k c) = x k c
      rw [if_neg (by rintro ⟨h1, _⟩; omega)]
      exact ih (by omega)

theorem vfill_aux_stable {ι α : Type} (unf : ℕ → ι → Bool) (x : ℕ → ι → Option α)
    (m mp k : ℕ) (c : ι) (h1 : k ≤ m) (h2 : m ≤ mp) :
    vfill_aux unf x mp k c = vfill_aux unf x m k c := by
  induction mp with
  | zero =>
      have hm : m = 0 := Nat.le_zero.mp h2
      subst hm; rfl
  | succ mp ih =>
      rcases Nat.lt_or_ge m (mp + 1) with hlt | hge
      · have hm : m ≤ mp := Nat.lt_succ_iff.mp hlt
        show (if k = mp + 1 ∧ unf k c = true then vfill_aux unf x mp mp c
          else vfill_aux unf x mp k c) = vfill_aux unf x m k c
        rw [if_neg (by rintro ⟨h3, _⟩; omega)]
        exact ih hm
      · have hm : m = mp + 1 := le_antisymm h2 hge
        subst hm; rfl

/-- Level k of the loop output, for k inside the loop range: filled from the
final level k - 1 when k was unfilled, untouched otherwise. Level k is
rewritten exactly once, at iteration k, from the already final level k - 1. -/
theorem vfill_aux_final {ι α : Type} (unf : ℕ → ι → Bool) (x : ℕ → ι → Option α)
    (m k : ℕ) (c : ι) (h1 : 1 ≤ k) (h2 : k ≤ m) :
    vfill_aux unf x m k c =
      if unf k c = true then vfill_aux unf x m (k - 1) c else x k c := by
  obtain ⟨kp, rfl⟩ : ∃ kp, k = kp + 1 := ⟨k - 1, by omega⟩
  rw [vfill_aux_stable unf x (kp + 1) m (kp + 1) c (le_refl _) h2]
  show (if kp + 1 = kp + 1 ∧ unf (kp + 1) c = true then vfill_aux unf x kp kp c
    else vfill_aux unf x kp (kp + 1) c) = _
  by_cases hu : unf (kp + 1) c = true
  · rw [if_pos ⟨rfl, hu⟩, if_pos hu]
    exact (vfill_aux_stable unf x kp m kp c (le_refl _) (by omega)).symm
  · rw [if_neg (fun hc => hu hc.2), if_neg hu]
    exact vfill_aux_above unf x kp (kp + 1) c (Nat.lt_succ_self kp)

theorem vfill_aux_of_no_unf {ι α : Type} (unf : ℕ → ι → Bool) (x : ℕ → ι → Option α)
    (nk : ℕ) (h : ∀ k (c : ι), k < nk → unf k c = false) (m : ℕ) (hm : m ≤ nk - 1)
    (k : ℕ) (c : ι) : vfill_aux unf x m k c = x k c := by
  induction m with
  | zero => rfl
  | succ m ih =>
      show (if k = m + 1 ∧ unf k c = true then vfill_aux unf x m m c
        else vfill_aux unf x m k c) = x k c
      have hne : ¬(k = m + 1 ∧ unf k c = true) := by
        rintro ⟨rfl, hu⟩
        rw [h (m + 1) c (by omega)] at hu
        cases hu
      rw [if_neg hne]
      exact ih (by omega)

/-- The pass equals the bare loop: when no cell is unfilled, the guarded skip
and the loop (whose every iteration is then the identity) agree. -/
theorem vertical_fill_eq_loop {ι : Type} [Fintype ι] {α : Type} (nk : ℕ)
    (mask : ℕ → ι → Bool) (x : ℕ → ι → Option α) :
    vertical_fill nk mask x = vfill_aux (unfilled_of mask x) x (nk - 1) := by
  unfold vertical_fill
  by_cases hg : ∃ k ∈ Finset.range nk, ∃ c : ι, unfilled_of mask x k c = true
  · rw [if_pos hg]
  · rw [if_neg hg]
    funext k c
    symm
    apply vfill_aux_of_no_unf (unfilled_of mask x) x nk _ (nk - 1) (le_refl _) k c
    intro kp cp hkp
    cases hu : unfilled_of mask x kp cp with
    | false => rfl
    | true => exact absurd ⟨kp, Finset.mem_range.mpr hkp, cp, hu⟩ hg

theorem vertical_fill_zero {ι : Type} [Fintype ι] {α : Type} (nk : ℕ)
    (mask : ℕ → ι → Bool) (x : ℕ → ι → Option α) (c : ι) :
    vertical_fill nk mask x 0 c = x 0 c := by
  rw [vertical_fill_eq_loop]
  exact vfill_aux_zero _ x (nk - 1) c

theorem vertical_fill_above {ι : Type} [Fintype ι] {α : Type} (nk : ℕ)
    (mask : ℕ → ι → Bool) (x : ℕ → ι → Option α) (k : ℕ) (c : ι) (h : nk - 1 < k) :
    vertical_fill nk mask x k c = x k c := by
  rw [vertical_fill_eq_loop]
  exact vfill_aux_above _ x (nk - 1) k c h

theorem vertical_fill_rec {ι : Type} [Fintype ι] {α : Type} (nk : ℕ)
    (mask : ℕ → ι → Bool) (x : ℕ → ι → Option α) (k : ℕ) (c : ι)
    (h1 : 1 ≤ k) (h2 : k ≤ nk - 1) :
    vertical_fill nk mask x k c =
      if unfilled_of mask x k c = true then vertical_fill nk mask x (k - 1) c
      else x k c := by
  rw [vertical_fill_eq_loop]
  exact vfill_aux_final _ x (nk - 1) k c h1 h2

/-- C7: vertical nearest-above fill. Over the ocean mask derived from KMT,
one top-to-bottom pass leaves every non-missing cell unchanged; every masked
missing cell at a level 1 <= k < nk takes the (possibly already filled)
final value of level k - 1; and a masked cell still missing after the pass
has its whole column above it, up to the surface, missing in the input:
only deep-hole gaps are resolved, not gaps starting at the surface. -/
theorem C7_vertical_nearest_above_fill (ι : Type) [Fintype ι] (α : Type) (nk : ℕ)
    (kmt : ι → ℕ) (x : ℕ → ι → Option α) :
    (∀ (k : ℕ) (c : ι), (x k c).isSome = true →
      vertical_fill nk (oceanMask kmt) x k c = x k c) ∧
    (∀ (k : ℕ) (c : ι), 1 ≤ k → k < nk → k < kmt c → (x k c).isNone = true →
      vertical_fill nk (oceanMask kmt) x k c
        = vertical_fill nk (oceanMask kmt) x (k - 1) c) ∧
    (∀ (k : ℕ) (c : ι), k < nk → k < kmt c →
      (vertical_fill nk (oceanMask kmt) x k c).isNone = true →
      ∀ kp, kp ≤ k → (x kp c).isNone = true) := by
  refine ⟨?_, ?_, ?_⟩
  · intro k c hs
    have hn : (x k c).isNone = false := by
      cases hx : x k c with
      | none => rw [hx] at hs; simp at hs
      | some a => simp
    rcases Nat.eq_zero_or_pos k with rfl | hk1
    · exact vertical_fill_zero nk _ x c
    rcases Nat.lt_or_ge (nk - 1) k with hgt | hle
    · exact vertical_fill_above nk _ x k c hgt
    · rw [vertical_fill_rec nk _ x k c hk1 hle]
      rw [if_neg (by simp [unfilled_of, hn])]
  · intro k c hk1 hknk hkmt hn
    have hle : k ≤ nk - 1 := by omega
    rw [vertical_fill_rec nk _ x k c hk1 hle]
    rw [if_pos (by simp [unfilled_of, hn, oceanMask, hkmt])]
  · intro k
    induction k with
    | zero =>
        intro c _ _ hy kp hkp
        have hkp0 : kp = 0 := Nat.le_zero.mp hkp
        subst hkp0
        rwa [vertical_fill_zero nk _ x c] at hy
    | succ k ih =>
        intro c h1 h2 hy kp hkp
        have hk1 : 1 ≤ k + 1 := by omega
        have hk2 : k + 1 ≤ nk - 1 := by omega
        rw [vertical_fill_rec nk _ x (k + 1) c hk1 hk2] at hy
        by_cases hu : unfilled_of (oceanMask kmt) x (k + 1) c = true
        · rw [if_pos hu] at hy
          have hxk1 : (x (k + 1) c).isNone = true := by
            unfold unfilled_of at hu
            simp only [Bool.and_eq_true] at hu
            exact hu.1
          have hrest := ih c (by omega) (by omega) hy
          rcases Nat.lt_or_ge kp (k + 1) with hlt | hge
          · exact hrest kp (by omega)
          · have hkpeq : kp = k + 1 := by omega
            subst hkpeq
            exact hxk1
        · rw [if_neg hu] at hy
          exfalso
          apply hu
          unfold unfilled_of
          rw [hy]
          simp [oceanMask, h2]

/-- C7 witness: on the one-column three-level fixture with KMT = 3, the
masked missing level 1 is filled from level 0. -/
theorem C7_witness :
    vertical_fill 3 (oceanMask fun _ => 3) xC7 1 0
      = vertical_fill 3 (oceanMask fun _ => 3) xC7 0 0 :=
  (C7_vertical_nearest_above_fill (Fin 1) ℚ 3 (fun _ => 3) xC7).2.1 1 0
    (by decide) (by decide) (by decide) rfl

/-- A masked cell left missing by the pass has a missing cell right above it
(for k inside the loop range). -/
theorem vertical_fill_none_step_down {ι : Type} [Fintype ι] {α : Type} (nk : ℕ)
    (mask : ℕ → ι → Bool) (x : ℕ → ι → Option α) (k : ℕ) (c : ι)
    (h1 : 1 ≤ k) (h2 : k ≤ nk - 1)
    (hy : (vertical_fill nk mask x k c).isNone = true) (hm : mask k c = true) :
    (vertical_fill nk mask x (k - 1) c).isNone = true := by
  rw [vertical_fill_rec nk mask x k c h1 h2] at hy
  by_cases hu : unfilled_of mask x k c = true
  · rwa [if_pos hu] at hy
  · rw [if_neg hu] at hy
    exfalso
    apply hu
    unfold unfilled_of
    rw [hy, hm]
    rfl

/-- C8: vertical fill idempotence. For every field and mask, running the
pass on the output of the pass changes nothing: one pass reaches a fixed
point. -/
theorem C8_vertical_fill_idempotent (ι : Type) [Fintype ι] (α : Type) (nk : ℕ)
    (mask : ℕ → ι → Bool) (x : ℕ → ι → Option α) :
    vertical_fill nk mask (vertical_fill nk mask x) = vertical_fill nk mask x := by
  rw [vertical_fill_eq_loop nk mask (vertical_fill nk mask x)]
  have key : ∀ m, m ≤ nk - 1 → ∀ (k : ℕ) (c : ι),
      vfill_aux (unfilled_of mask (vertical_fill nk mask x))
        (vertical_fill nk mask x) m k c = vertical_fill nk mask x k c := by
    intro m
    induction m with
    | zero => intro _ k c; rfl
    | succ m ih =>
        intro hm k c
        show (if k = m + 1 ∧ unfilled_of mask (vertical_fill nk mask x) k c = true
          then vfill_aux _ _ m m c else vfill_aux _ _ m k c) = _
        by_cases hc : k = m + 1 ∧
            unfilled_of mask (vertical_fill nk mask x) k c = true
        · rw [if_pos hc]
          obtain ⟨rfl, hu⟩ := hc
          rw [ih (by omega) m c]
          unfold unfilled_of at hu
          simp only [Bool.and_eq_true] at hu
          have hdn := vertical_fill_none_step_down nk mask x (m + 1) c
            (by omega) (by omega) hu.1 hu.2
          have hm1 : vertical_fill nk mask x m c = none :=
            Option.isNone_iff_eq_none.mp hdn
          have hm2 : vertical_fill nk mask x (m + 1) c = none :=
            Option.isNone_iff_eq_none.mp hu.1
          rw [hm1, hm2]
        · rw [if_neg hc]
          exact ih (by omega) k c
  funext k c
  exact key (nk - 1) (le_refl _) k c

/-- C9: residual-gap diagnostic. The warning message, which names the field,
is emitted if and only if some masked cell is still missing after the
vertical fill pass; the field (filled as far as the pass got) is returned
either way, so processing continues and the field is stored. -/
theorem C9_residual_missing_warning (ι : Type) [Fintype ι] (α : Type)
    (tracername : String) (nk : ℕ) (mask : ℕ → ι → Bool) (x : ℕ → ι → Option α) :
    ((tracer_fill_with_warning tracername nk mask x).2
        = some (tracername ++ " still has missing values") ↔
      ∃ k ∈ Finset.range nk, ∃ c : ι, mask k c = true ∧
        ((tracer_fill_with_warning tracername nk mask x).1 k c).isNone = true) ∧
    (tracer_fill_with_warning tracername nk mask x).1 = vertical_fill nk mask x := by
  by_cases hg : ∃ k ∈ Finset.range nk, ∃ c : ι, unfilled_of mask x k c = true
  · have h1 : (tracer_fill_with_warning tracername nk mask x).1
        = vfill_aux (unfilled_of mask x) x (nk - 1) := by
      unfold tracer_fill_with_warning
      rw [if_pos hg]
    have h2 : (tracer_fill_with_warning tracername nk mask x).2
        = if ∃ k ∈ Finset.range nk, ∃ c : ι,
              (vfill_aux (unfilled_of mask x) x (nk - 1) k c).isNone = true ∧
                mask k c = true
          then some (tracername ++ " still has missing values") else none := by
      unfold tracer_fill_with_warning
      rw [if_pos hg]
    have heq : vertical_fill nk mask x = vfill_aux (unfilled_of mask x) x (nk - 1) := by
      unfold vertical_fill
      rw [if_pos hg]
    refine ⟨?_, by rw [h1, heq]⟩
    rw [h1, h2]
    by_cases hr : ∃ k ∈ Finset.range nk, ∃ c : ι,
        (vfill_aux (unfilled_of mask x) x (nk - 1) k c).isNone = true ∧ mask k c = true
    · rw [if_pos hr]
      constructor
      · intro _
        obtain ⟨k, hk, c, hn, hm⟩ := hr
        exact ⟨k, hk, c, hm, hn⟩
      · intro _
        rfl
    · rw [if_neg hr]
      constructor
      · intro h
        exact Option.noConfusion h
      · rintro ⟨k, hk, c, hm, hn⟩
        exact absurd ⟨k, hk, c, hn, hm⟩ hr
  · have h1 : tracer_fill_with_warning tracername nk mask x = (x, none) := by
      unfold tracer_fill_with_warning
      rw [if_neg hg]
    have heq : vertical_fill nk mask x = x := by
      unfold vertical_fill
      rw [if_neg hg]
    rw [h1, heq]
    refine ⟨?_, rfl⟩
    constructor
    · intro h
      exact Option.noConfusion h
    · rintro ⟨k, hk, c, hm, hn⟩
      refine absurd ⟨k, hk, c, ?_⟩ hg
      unfold unfilled_of
      rw [hn, hm]
      rfl

/-- C9 witness: on a fully masked all-missing two-level column the pass
leaves gaps, and the warning naming the tracer is emitted. -/
theorem C9_witness :
    (tracer_fill_with_warning "PO4" 2 (fun _ _ => true) xC9).2
      = some ("PO4" ++ " still has missing values") :=
  (C9_residual_missing_warning (Fin 1) ℚ "PO4" 2 (fun _ _ => true) xC9).1.mpr
    ⟨0, by decide, 0, rfl, rfl⟩

-- List update lemmas for the heap model.

theorem list_getD_set_self {γ : Type} :
    ∀ (l : List γ) (n : ℕ) (v d : γ), n < l.length → (l.set n v).getD n d = v := by
  intro l
  induction l with
  | nil => intro n v d h; simp at h
  | cons a t ih =>
      intro n v d h
      cases n with
      | zero => rfl
      | succ n => exact ih n v d (by simpa using h)

theorem list_getD_set_ne {γ : Type} :
    ∀ (l : List γ) (n m : ℕ) (v d : γ), n ≠ m → (l.set n v).getD m d = l.getD m d := by
  intro l
  induction l with
  | nil => intro n m v d _; rfl
  | cons a t ih =>
      intro n m v d h
      cases n with
      | zero =>
          cases m with
          | zero => exact absurd rfl h
          | succ m => rfl
      | succ n =>
          cases m with
          | zero => rfl
          | succ m => exact ih n m v d (fun he => h (by rw [he]))

/-- C10: in the derived-quantities step, DOCtot is an alias of the DOC array
(it shares the underlying variable), and its values are then assigned in
place, so after the step DOC no longer holds the regridded values: DOC and
DOCtot both read as the original DOC plus DOCr, while DOCr is unchanged. -/
theorem C10_doctot_aliasing (ι : Type) (ds : PyDataset ι) (docSlot docrSlot : ℕ)
    (hdoc : ds.vars "DOC" = some docSlot)
    (hdocr : ds.vars "DOCr" = some docrSlot)
    (hne : docSlot ≠ docrSlot)
    (hlen : docSlot < ds.heap.length) :
    (∀ c, readVar (derived_quantities_step ds) "DOC" c
        = readVar ds "DOC" c + readVar ds "DOCr" c) ∧
    (∀ c, readVar (derived_quantities_step ds) "DOCtot" c
        = readVar ds "DOC" c + readVar ds "DOCr" c) ∧
    (∀ c, readVar (derived_quantities_step ds) "DOCr" c = readVar ds "DOCr" c) := by
  have hstep : derived_quantities_step ds =
      { heap := ds.heap.set docSlot
          (fun c => readVar ds "DOC" c + readVar ds "DOCr" c)
        vars := fun n => if n = "DOCtot" then some docSlot else ds.vars n } := by
    unfold derived_quantities_step
    rw [hdoc]
  have hv1 : (derived_quantities_step ds).vars "DOCtot" = some docSlot := by
    rw [hstep]
    show (if "DOCtot" = "DOCtot" then some docSlot else ds.vars "DOCtot") = some docSlot
    rw [if_pos rfl]
  have hv2 : (derived_quantities_step ds).vars "DOC" = some docSlot := by
    rw [hstep]
    show (if "DOC" = "DOCtot" then some docSlot else ds.vars "DOC") = some docSlot
    rw [if_neg (by decide)]
    exact hdoc
  have hv3 : (derived_quantities_step ds).vars "DOCr" = some docrSlot := by
    rw [hstep]
    show (if "DOCr" = "DOCtot" then some docSlot else ds.vars "DOCr") = some docrSlot
    rw [if_neg (by decide)]
    exact hdocr
  have hheap : (derived_quantities_step ds).heap = ds.heap.set docSlot
      (fun c => readVar ds "DOC" c + readVar ds "DOCr" c) := by
    rw [hstep]
  have hread : ∀ (name : String) (slot : ℕ),
      (derived_quantities_step ds).vars name = some slot →
      readVar (derived_quantities_step ds) name
        = (derived_quantities_step ds).heap.getD slot (fun _ => 0) := by
    intro name slot h
    unfold readVar
    rw [h]
  refine ⟨?_, ?_, ?_⟩
  · intro c
    rw [hread "DOC" docSlot hv2, hheap,
      list_getD_set_self ds.heap docSlot _ _ hlen]
  · intro c
    rw [hread "DOCtot" docSlot hv1, hheap,
      list_getD_set_self ds.heap docSlot _ _ hlen]
  · intro c
    rw [hread "DOCr" docrSlot hv3, hheap,
      list_getD_set_ne ds.heap docSlot docrSlot _ _ hne]
    unfold readVar
    rw [hdocr]

/-- C10 witness: with DOC constant 2 and DOCr constant 3 the step leaves
DOC and DOCtot both reading 5 while DOCr still reads 3. -/
theorem C10_witness :
    readVar (derived_quantities_step dsC10) "DOC" () = 5 ∧
    readVar (derived_quantities_step dsC10) "DOCtot" () = 5 ∧
    readVar (derived_quantities_step dsC10) "DOCr" () = 3 := by
  have h := C10_doctot_aliasing Unit dsC10 0 1 (by decide) (by decide)
    (by decide) (by decide)
  refine ⟨?_, ?_, ?_⟩
  · rw [h.1 ()]
    simp [readVar, dsC10]
    norm_num
  · rw [h.2.1 ()]
    simp [readVar, dsC10]
    norm_num
  · rw [h.2.2 ()]
    simp [readVar, dsC10]
